import Mathlib

/-!
# A shallow embedding of the `pol` deniable password safe

This file embeds the core of `pol` (`src/safe.py`, `src/main.py`) into Lean 4
and proves properties of the embedded definitions.

Modelling conventions:

* Byte strings are `List ℕ`, every entry below 256 where produced by the code.
* Randomness is externalized: every random draw of the Python code becomes an
  explicit natural-number parameter (a draw `r`), fed through the embedding of
  the library primitive that consumes it.
* `gmpy.mpz(_, 256)` / `mpz.binary()` (the portable base-256 representation of
  unsigned big integers) are embedded as `mpzOfBinary` / `natBinary`.
* `Crypto.Random.random.randint(a, b)` returns an integer `N` with
  `a <= N <= b` (both endpoints inclusive, the Python convention); it is
  embedded as `randint`.
* `msgpack.pack` / `msgpack.unpack` are embedded as a concrete encoder and
  decoder for the classic msgpack wire format, over the value universe the
  safe uses (nil, booleans, non-negative integers, raw strings, arrays, maps).
-/

namespace Pol

/-! ## Big-integer byte strings (gmpy `binary` / `mpz(_, 256)`) -/

/-- Base-256 digits of `n`, least significant first, with an explicit
structural fuel (`fuel ≥ n` makes it exact). -/
def natBinaryAux : ℕ → ℕ → List ℕ
  | _, 0 => []
  | 0, _ + 1 => []
  | fuel + 1, n + 1 => (n + 1) % 256 :: natBinaryAux fuel ((n + 1) / 256)

/-- `mpz.binary()` of gmpy: the portable base-256 byte-string representation
of an unsigned big integer (least significant byte first, minimal length). -/
def natBinary (n : ℕ) : List ℕ := natBinaryAux n n

/-- `gmpy.mpz(s, 256)`: read back a base-256 byte string as a natural. -/
def mpzOfBinary (bs : List ℕ) : ℕ :=
  bs.foldr (fun b acc => b + 256 * acc) 0

theorem mpzOfBinary_natBinaryAux :
    ∀ fuel n, n ≤ fuel → mpzOfBinary (natBinaryAux fuel n) = n := by
  intro fuel
  induction fuel with
  | zero =>
    intro n h
    interval_cases n
    rfl
  | succ fuel ih =>
    intro n h
    match n with
    | 0 => rfl
    | n + 1 =>
      rw [natBinaryAux]
      have hlt : (n + 1) / 256 < n + 1 :=
        Nat.div_lt_self (Nat.succ_pos n) (by norm_num)
      show (n + 1) % 256 + 256 * mpzOfBinary (natBinaryAux fuel ((n + 1) / 256)) = n + 1
      rw [ih ((n + 1) / 256) (by omega)]
      omega

theorem mpzOfBinary_natBinary (n : ℕ) : mpzOfBinary (natBinary n) = n :=
  mpzOfBinary_natBinaryAux n n le_rfl

/-! ## Randomness primitives -/

/-- `Crypto.Random.random.randint(a, b)`: a random integer `N` with
`a ≤ N ≤ b` — inclusive at *both* endpoints, as in the Python standard
library.  The draw is externalized as `r`; every value of the inclusive
range is attained for a suitable `r`. -/
def randint (a b r : ℕ) : ℕ := a + r % (b - a + 1)

theorem randint_lower (a b r : ℕ) : a ≤ randint a b r := Nat.le_add_right a _

theorem randint_upper (a b r : ℕ) (h : a ≤ b) : randint a b r ≤ b := by
  unfold randint
  have hpos : 0 < b - a + 1 := Nat.succ_pos _
  have := Nat.mod_lt r hpos
  omega

/-- Every value of the inclusive range `[a, b]` is attained. -/
theorem randint_attains (a b v : ℕ) (h1 : a ≤ v) (h2 : v ≤ b) :
    randint a b (v - a) = v := by
  unfold randint
  have : v - a < b - a + 1 := by omega
  rw [Nat.mod_eq_of_lt this]
  omega

/-! ## Constants of `safe.py` (lines 24–34) -/

/-- `AS_MAGIC = binascii.unhexlify('1a1a8ad7')` — starting bytes of an
access slice. -/
def AS_MAGIC : List ℕ := [0x1a, 0x1a, 0x8a, 0xd7]

/-- `KC_ELGAMAL = binascii.unhexlify('d53d376a7db498956d7d7f5e570509d5')` —
key-derivation tag for ElGamal private keys. -/
def KC_ELGAMAL : List ℕ :=
  [0xd5, 0x3d, 0x37, 0x6a, 0x7d, 0xb4, 0x98, 0x95,
   0x6d, 0x7d, 0x7f, 0x5e, 0x57, 0x05, 0x09, 0xd5]

/-- `KC_LIST = binascii.unhexlify('d53d376a7db498956d7d7f5e570509d5')` —
key-derivation tag for list keys. -/
def KC_LIST : List ℕ :=
  [0xd5, 0x3d, 0x37, 0x6a, 0x7d, 0xb4, 0x98, 0x95,
   0x6d, 0x7d, 0x7f, 0x5e, 0x57, 0x05, 0x09, 0xd5]

/-- `KC_APPEND = binascii.unhexlify('76001c344cbd9e73a6b5bd48b67266d9')` —
key-derivation tag for append keys. -/
def KC_APPEND : List ℕ :=
  [0x76, 0x00, 0x1c, 0x34, 0x4c, 0xbd, 0x9e, 0x73,
   0xa6, 0xb5, 0xbd, 0x48, 0xb6, 0x72, 0x66, 0xd9]

/-! ## msgpack: the value universe and the wire format

`Safe.store` is `msgpack.pack(self.data, stream)` and `Safe.load` starts with
`msgpack.unpack(stream, use_list=True)`.  We embed the classic msgpack wire
format over the value universe a safe's data uses: nil, booleans,
non-negative integers, raw byte strings, arrays and maps. -/

inductive Value : Type where
  | nil : Value
  | bool (b : Bool) : Value
  | int (n : ℕ) : Value
  | raw (bs : List ℕ) : Value
  | arr (elems : List Value) : Value
  | map (entries : List (Value × Value)) : Value

/-- Write `k` bytes, big-endian, of a natural `n < 256 ^ k`. -/
def beBytes : ℕ → ℕ → List ℕ
  | 0, _ => []
  | k + 1, n => n / 256 ^ k :: beBytes k (n % 256 ^ k)

/-- Read `k` big-endian bytes. -/
def readBE : ℕ → List ℕ → Option (ℕ × List ℕ)
  | 0, bs => some (0, bs)
  | _ + 1, [] => none
  | k + 1, b :: bs => (readBE k bs).map (fun p => (b * 256 ^ k + p.1, p.2))

/-- Read `k` raw bytes. -/
def readRaw : ℕ → List ℕ → Option (List ℕ × List ℕ)
  | 0, bs => some ([], bs)
  | _ + 1, [] => none
  | k + 1, b :: bs => (readRaw k bs).map (fun p => (b :: p.1, p.2))

theorem readBE_beBytes (k : ℕ) :
    ∀ n rest, n < 256 ^ k → readBE k (beBytes k n ++ rest) = some (n, rest) := by
  induction k with
  | zero =>
    intro n rest hn
    interval_cases n
    rfl
  | succ k ih =>
    intro n rest hn
    have hm : n % 256 ^ k < 256 ^ k :=
      Nat.mod_lt _ (Nat.pos_pow_of_pos k (by norm_num))
    simp only [beBytes, List.cons_append, readBE, List.append_eq, ih _ rest hm,
      Option.map_some']
    rw [Nat.div_add_mod' n (256 ^ k)]

theorem readRaw_append (l : List ℕ) :
    ∀ rest, readRaw l.length (l ++ rest) = some (l, rest) := by
  induction l with
  | nil => intro rest; rfl
  | cons b bs ih =>
    intro rest
    simp only [List.length_cons, List.cons_append, readRaw, List.append_eq, ih rest,
      Option.map_some']

mutual

/-- `msgpack.pack`: serialize one value (classic msgpack wire format).
Returns `none` when a length exceeds what the format can carry. -/
def packValue : Value → Option (List ℕ)
  | .nil => some [0xc0]
  | .bool false => some [0xc2]
  | .bool true => some [0xc3]
  | .int n =>
      if n < 0x80 then some [n]
      else if n < 0x100 then some [0xcc, n]
      else if n < 0x10000 then some (0xcd :: beBytes 2 n)
      else if n < 0x100000000 then some (0xce :: beBytes 4 n)
      else if n < 0x10000000000000000 then some (0xcf :: beBytes 8 n)
      else none
  | .raw bs =>
      if bs.length < 0x20 then some ((0xa0 + bs.length) :: bs)
      else if bs.length < 0x10000 then some (0xda :: (beBytes 2 bs.length ++ bs))
      else if bs.length < 0x100000000 then some (0xdb :: (beBytes 4 bs.length ++ bs))
      else none
  | .arr l =>
      match packList l with
      | none => none
      | some body =>
          if l.length < 0x10 then some ((0x90 + l.length) :: body)
          else if l.length < 0x10000 then some (0xdc :: (beBytes 2 l.length ++ body))
          else if l.length < 0x100000000 then
            some (0xdd :: (beBytes 4 l.length ++ body))
          else none
  | .map l =>
      match packEntries l with
      | none => none
      | some body =>
          if l.length < 0x10 then some ((0x80 + l.length) :: body)
          else if l.length < 0x10000 then some (0xde :: (beBytes 2 l.length ++ body))
          else if l.length < 0x100000000 then
            some (0xdf :: (beBytes 4 l.length ++ body))
          else none

/-- Serialize the elements of an array, in order. -/
def packList : List Value → Option (List ℕ)
  | [] => some []
  | v :: vs =>
      match packValue v, packList vs with
      | some h, some t => some (h ++ t)
      | _, _ => none

/-- Serialize the key/value entries of a map, in order. -/
def packEntries : List (Value × Value) → Option (List ℕ)
  | [] => some []
  | (k, v) :: kvs =>
      match packValue k, packValue v, packEntries kvs with
      | some hk, some hv, some t => some (hk ++ hv ++ t)
      | _, _, _ => none

end

set_option maxRecDepth 4000 in
mutual

/-- `msgpack.unpack` (one value): decode a value from a byte stream,
returning the value and the remaining stream.  `fuel` bounds the nesting
depth explored. -/
def unpackValue : ℕ → List ℕ → Option (Value × List ℕ)
  | 0, _ => none
  | _ + 1, [] => none
  | fuel + 1, b :: bs =>
      if b < 0x80 then some (.int b, bs)
      else if b < 0x90 then
        (unpackEntries fuel (b - 0x80) bs).map (fun p => (.map p.1, p.2))
      else if b < 0xa0 then
        (unpackList fuel (b - 0x90) bs).map (fun p => (.arr p.1, p.2))
      else if b < 0xc0 then
        (readRaw (b - 0xa0) bs).map (fun p => (.raw p.1, p.2))
      else if b = 0xc0 then some (.nil, bs)
      else if b = 0xc2 then some (.bool false, bs)
      else if b = 0xc3 then some (.bool true, bs)
      else if b = 0xcc then
        match bs with
        | n :: rest => some (.int n, rest)
        | [] => none
      else if b = 0xcd then (readBE 2 bs).map (fun p => (.int p.1, p.2))
      else if b = 0xce then (readBE 4 bs).map (fun p => (.int p.1, p.2))
      else if b = 0xcf then (readBE 8 bs).map (fun p => (.int p.1, p.2))
      else if b = 0xda then
        match readBE 2 bs with
        | some (len, rest) => (readRaw len rest).map (fun p => (.raw p.1, p.2))
        | none => none
      else if b = 0xdb then
        match readBE 4 bs with
        | some (len, rest) => (readRaw len rest).map (fun p => (.raw p.1, p.2))
        | none => none
      else if b = 0xdc then
        match readBE 2 bs with
        | some (n, rest) =>
            (unpackList fuel n rest).map (fun p => (.arr p.1, p.2))
        | none => none
      else if b = 0xdd then
        match readBE 4 bs with
        | some (n, rest) =>
            (unpackList fuel n rest).map (fun p => (.arr p.1, p.2))
        | none => none
      else if b = 0xde then
        match readBE 2 bs with
        | some (n, rest) =>
            (unpackEntries fuel n rest).map (fun p => (.map p.1, p.2))
        | none => none
      else if b = 0xdf then
        match readBE 4 bs with
        | some (n, rest) =>
            (unpackEntries fuel n rest).map (fun p => (.map p.1, p.2))
        | none => none
      else none
termination_by fuel _ => (fuel, 0)

/-- Decode `n` consecutive values (the elements of an array). -/
def unpackList : ℕ → ℕ → List ℕ → Option (List Value × List ℕ)
  | _, 0, bs => some ([], bs)
  | fuel, n + 1, bs =>
      match unpackValue fuel bs with
      | some (v, rest) =>
          match unpackList fuel n rest with
          | some (vs, rest2) => some (v :: vs, rest2)
          | none => none
      | none => none
termination_by fuel n _ => (fuel, n + 1)

/-- Decode `n` consecutive key/value pairs (the entries of a map). -/
def unpackEntries : ℕ → ℕ → List ℕ → Option (List (Value × Value) × List ℕ)
  | _, 0, bs => some ([], bs)
  | fuel, n + 1, bs =>
      match unpackValue fuel bs with
      | some (k, rest) =>
          match unpackValue fuel rest with
          | some (v, rest2) =>
              match unpackEntries fuel n rest2 with
              | some (kvs, rest3) => some ((k, v) :: kvs, rest3)
              | none => none
          | none => none
      | none => none
termination_by fuel n _ => (fuel, n + 1)

end

/-! ### Round-trip: unpacking a packed value gives the value back -/

mutual

/-- Nesting depth of a value (how much decoder fuel it needs). -/
def valueDepth : Value → ℕ
  | .nil => 1
  | .bool _ => 1
  | .int _ => 1
  | .raw _ => 1
  | .arr l => 1 + listDepth l
  | .map l => 1 + entriesDepth l

def listDepth : List Value → ℕ
  | [] => 0
  | v :: vs => max (valueDepth v) (listDepth vs)

def entriesDepth : List (Value × Value) → ℕ
  | [] => 0
  | (k, v) :: kvs => max (max (valueDepth k) (valueDepth v)) (entriesDepth kvs)

end

theorem valueDepth_pos (v : Value) : 1 ≤ valueDepth v := by
  cases v <;> simp [valueDepth]

theorem unpackList_aux (fuel : ℕ)
    (IH : ∀ v out, valueDepth v ≤ fuel → packValue v = some out →
      ∀ rest, unpackValue fuel (out ++ rest) = some (v, rest)) :
    ∀ l out, listDepth l ≤ fuel → packList l = some out →
    ∀ rest, unpackList fuel l.length (out ++ rest) = some (l, rest) := by
  intro l
  induction l with
  | nil =>
    intro out _ hpack rest
    rw [packList] at hpack
    cases hpack
    simp [unpackList]
  | cons v vs ih =>
    intro out hd hpack rest
    rw [packList] at hpack
    rw [listDepth] at hd
    cases hh : packValue v with
    | none => rw [hh] at hpack; cases hpack
    | some h =>
      cases ht : packList vs with
      | none => rw [hh, ht] at hpack; cases hpack
      | some t =>
        rw [hh, ht] at hpack
        cases hpack
        rw [List.length_cons, List.append_assoc]
        simp only [unpackList, IH v h (le_trans (le_max_left _ _) hd) hh,
          ih t (le_trans (le_max_right _ _) hd) ht]

theorem unpackEntries_aux (fuel : ℕ)
    (IH : ∀ v out, valueDepth v ≤ fuel → packValue v = some out →
      ∀ rest, unpackValue fuel (out ++ rest) = some (v, rest)) :
    ∀ l out, entriesDepth l ≤ fuel → packEntries l = some out →
    ∀ rest, unpackEntries fuel l.length (out ++ rest) = some (l, rest) := by
  intro l
  induction l with
  | nil =>
    intro out _ hpack rest
    rw [packEntries] at hpack
    cases hpack
    simp [unpackEntries]
  | cons kv kvs ih =>
    intro out hd hpack rest
    obtain ⟨k, v⟩ := kv
    rw [packEntries] at hpack
    rw [entriesDepth] at hd
    cases hk : packValue k with
    | none => rw [hk] at hpack; cases hpack
    | some bk =>
      cases hv : packValue v with
      | none => rw [hk, hv] at hpack; cases hpack
      | some bv =>
        cases ht : packEntries kvs with
        | none => rw [hk, hv, ht] at hpack; cases hpack
        | some t =>
          rw [hk, hv, ht] at hpack
          cases hpack
          rw [List.length_cons, List.append_assoc, List.append_assoc]
          simp only [unpackEntries,
            IH k bk (le_trans (le_trans (le_max_left _ _) (le_max_left _ _)) hd) hk,
            IH v bv (le_trans (le_trans (le_max_right _ _) (le_max_left _ _)) hd) hv,
            ih t (le_trans (le_max_right _ _) hd) ht]

/-- Unpacking a packed value from a byte stream returns the value and leaves
the rest of the stream untouched. -/
theorem unpackValue_packValue :
    ∀ fuel v out, valueDepth v ≤ fuel → packValue v = some out →
    ∀ rest, unpackValue fuel (out ++ rest) = some (v, rest) := by
  intro fuel
  induction fuel using Nat.strong_induction_on with
  | _ fuel IH =>
    intro v out hd hpack rest
    cases fuel with
    | zero => exact absurd hd (by have := valueDepth_pos v; omega)
    | succ fuel =>
      have IHf : ∀ v out, valueDepth v ≤ fuel → packValue v = some out →
          ∀ rest, unpackValue fuel (out ++ rest) = some (v, rest) :=
        fun v out h1 h2 rest => IH fuel (Nat.lt_succ_self fuel) v out h1 h2 rest
      cases v with
      | nil =>
        rw [packValue] at hpack
        cases hpack
        rw [List.cons_append, List.nil_append, unpackValue.eq_def]
        norm_num
      | bool b =>
        cases b with
        | false =>
          rw [packValue] at hpack
          cases hpack
          rw [List.cons_append, List.nil_append, unpackValue.eq_def]
          norm_num
        | true =>
          rw [packValue] at hpack
          cases hpack
          rw [List.cons_append, List.nil_append, unpackValue.eq_def]
          norm_num
      | int n =>
        rw [packValue] at hpack
        by_cases h1 : n < 0x80
        · rw [if_pos h1] at hpack
          cases hpack
          rw [List.cons_append, List.nil_append, unpackValue.eq_def]
          simp only [if_pos h1]
        · rw [if_neg h1] at hpack
          by_cases h2 : n < 0x100
          · rw [if_pos h2] at hpack
            cases hpack
            rw [List.cons_append, List.cons_append, List.nil_append, unpackValue.eq_def]
            norm_num
          · rw [if_neg h2] at hpack
            by_cases h3 : n < 0x10000
            · rw [if_pos h3] at hpack
              cases hpack
              rw [List.cons_append, unpackValue.eq_def]
              norm_num [readBE_beBytes 2 n rest h3]
            · rw [if_neg h3] at hpack
              by_cases h4 : n < 0x100000000
              · rw [if_pos h4] at hpack
                cases hpack
                rw [List.cons_append, unpackValue.eq_def]
                norm_num [readBE_beBytes 4 n rest h4]
              · rw [if_neg h4] at hpack
                by_cases h5 : n < 0x10000000000000000
                · rw [if_pos h5] at hpack
                  cases hpack
                  rw [List.cons_append, unpackValue.eq_def]
                  norm_num [readBE_beBytes 8 n rest h5]
                · rw [if_neg h5] at hpack
                  exact Option.noConfusion hpack
      | raw bs =>
        rw [packValue] at hpack
        by_cases h1 : bs.length < 0x20
        · rw [if_pos h1] at hpack
          cases hpack
          rw [List.cons_append, unpackValue.eq_def]
          simp only []
          rw [if_neg (by omega), if_neg (by omega), if_neg (by omega),
            if_pos (by omega)]
          rw [show 0xa0 + bs.length - 0xa0 = bs.length from by omega]
          rw [readRaw_append bs rest]
          rfl
        · rw [if_neg h1] at hpack
          by_cases h2 : bs.length < 0x10000
          · rw [if_pos h2] at hpack
            cases hpack
            rw [List.cons_append, List.append_assoc, unpackValue.eq_def]
            norm_num [readBE_beBytes 2 bs.length (bs ++ rest) h2, readRaw_append]
          · rw [if_neg h2] at hpack
            by_cases h3 : bs.length < 0x100000000
            · rw [if_pos h3] at hpack
              cases hpack
              rw [List.cons_append, List.append_assoc, unpackValue.eq_def]
              norm_num [readBE_beBytes 4 bs.length (bs ++ rest) h3, readRaw_append]
            · rw [if_neg h3] at hpack
              exact Option.noConfusion hpack
      | arr l =>
        rw [packValue] at hpack
        cases hbody : packList l with
        | none => rw [hbody] at hpack; exact Option.noConfusion hpack
        | some body =>
          rw [hbody] at hpack
          simp only [] at hpack
          rw [valueDepth] at hd
          have hld : listDepth l ≤ fuel := by omega
          have hlist := unpackList_aux fuel IHf l body hld hbody
          by_cases h1 : l.length < 0x10
          · rw [if_pos h1] at hpack
            cases hpack
            rw [List.cons_append, unpackValue.eq_def]
            simp only []
            rw [if_neg (by omega), if_neg (by omega), if_pos (by omega)]
            rw [show 0x90 + l.length - 0x90 = l.length from by omega]
            rw [hlist rest]
            rfl
          · rw [if_neg h1] at hpack
            by_cases h2 : l.length < 0x10000
            · rw [if_pos h2] at hpack
              cases hpack
              rw [List.cons_append, List.append_assoc, unpackValue.eq_def]
              norm_num [readBE_beBytes 2 l.length (body ++ rest) h2, hlist rest]
            · rw [if_neg h2] at hpack
              by_cases h3 : l.length < 0x100000000
              · rw [if_pos h3] at hpack
                cases hpack
                rw [List.cons_append, List.append_assoc, unpackValue.eq_def]
                norm_num [readBE_beBytes 4 l.length (body ++ rest) h3, hlist rest]
              · rw [if_neg h3] at hpack
                exact Option.noConfusion hpack
      | map l =>
        rw [packValue] at hpack
        cases hbody : packEntries l with
        | none => rw [hbody] at hpack; exact Option.noConfusion hpack
        | some body =>
          rw [hbody] at hpack
          simp only [] at hpack
          rw [valueDepth] at hd
          have hld : entriesDepth l ≤ fuel := by omega
          have hmap := unpackEntries_aux fuel IHf l body hld hbody
          by_cases h1 : l.length < 0x10
          · rw [if_pos h1] at hpack
            cases hpack
            rw [List.cons_append, unpackValue.eq_def]
            simp only []
            rw [if_neg (by omega), if_pos (by omega)]
            rw [show 0x80 + l.length - 0x80 = l.length from by omega]
            rw [hmap rest]
            rfl
          · rw [if_neg h1] at hpack
            by_cases h2 : l.length < 0x10000
            · rw [if_pos h2] at hpack
              cases hpack
              rw [List.cons_append, List.append_assoc, unpackValue.eq_def]
              norm_num [readBE_beBytes 2 l.length (body ++ rest) h2, hmap rest]
            · rw [if_neg h2] at hpack
              by_cases h3 : l.length < 0x100000000
              · rw [if_pos h3] at hpack
                cases hpack
                rw [List.cons_append, List.append_assoc, unpackValue.eq_def]
                norm_num [readBE_beBytes 4 l.length (body ++ rest) h3, hmap rest]
              · rw [if_neg h3] at hpack
                exact Option.noConfusion hpack

theorem beBytes_length (k n : ℕ) : (beBytes k n).length = k := by
  induction k generalizing n with
  | zero => rfl
  | succ k ih => simp [beBytes, ih]

theorem listDepth_le_packList (l : List Value)
    (IH : ∀ v ∈ l, ∀ out, packValue v = some out → valueDepth v ≤ out.length) :
    ∀ out, packList l = some out → listDepth l ≤ out.length := by
  induction l with
  | nil => intro out _; simp [listDepth]
  | cons v vs ih =>
    intro out hpack
    rw [packList] at hpack
    cases hh : packValue v with
    | none => rw [hh] at hpack; exact Option.noConfusion hpack
    | some h =>
      cases ht : packList vs with
      | none => rw [hh, ht] at hpack; exact Option.noConfusion hpack
      | some t =>
        rw [hh, ht] at hpack
        cases hpack
        have h1 := IH v (List.mem_cons_self v vs) h hh
        have h2 := ih (fun w hw => IH w (List.mem_cons_of_mem v hw)) t ht
        rw [listDepth, List.length_append]
        exact Nat.max_le.mpr ⟨by omega, by omega⟩

theorem entriesDepth_le_packEntries (l : List (Value × Value))
    (IH : ∀ kv ∈ l, ∀ out1 out2, packValue kv.1 = some out1 →
      packValue kv.2 = some out2 →
      valueDepth kv.1 ≤ out1.length ∧ valueDepth kv.2 ≤ out2.length) :
    ∀ out, packEntries l = some out → entriesDepth l ≤ out.length := by
  induction l with
  | nil => intro out _; simp [entriesDepth]
  | cons kv kvs ih =>
    intro out hpack
    obtain ⟨k, v⟩ := kv
    rw [packEntries] at hpack
    cases hk : packValue k with
    | none => rw [hk] at hpack; exact Option.noConfusion hpack
    | some bk =>
      cases hv : packValue v with
      | none => rw [hk, hv] at hpack; exact Option.noConfusion hpack
      | some bv =>
        cases ht : packEntries kvs with
        | none => rw [hk, hv, ht] at hpack; exact Option.noConfusion hpack
        | some t =>
          rw [hk, hv, ht] at hpack
          cases hpack
          have h1 := IH (k, v) (List.mem_cons_self _ kvs) bk bv hk hv
          have h1a : valueDepth k ≤ bk.length := h1.1
          have h1b : valueDepth v ≤ bv.length := h1.2
          have h2 := ih (fun w hw => IH w (List.mem_cons_of_mem _ hw)) t ht
          rw [entriesDepth, List.length_append, List.length_append]
          exact Nat.max_le.mpr
            ⟨Nat.max_le.mpr ⟨by omega, by omega⟩, by omega⟩

/-- The nesting depth of a value never exceeds the length of its packed
encoding: the decoder fuel `length + 1` is always sufficient. -/
theorem valueDepth_le_packValue :
    ∀ k v, sizeOf v < k → ∀ out, packValue v = some out →
    valueDepth v ≤ out.length := by
  intro k
  induction k using Nat.strong_induction_on with
  | _ k IH =>
    intro v hsz out hpack
    cases v with
    | nil =>
      rw [packValue] at hpack
      cases hpack
      simp [valueDepth]
    | bool b =>
      cases b <;> (rw [packValue] at hpack; cases hpack; simp [valueDepth])
    | int n =>
      rw [packValue] at hpack
      rw [valueDepth]
      by_cases h1 : n < 0x80
      · rw [if_pos h1] at hpack; cases hpack; simp
      rw [if_neg h1] at hpack
      by_cases h2 : n < 0x100
      · rw [if_pos h2] at hpack; cases hpack; simp
      rw [if_neg h2] at hpack
      by_cases h3 : n < 0x10000
      · rw [if_pos h3] at hpack; cases hpack; simp [beBytes_length]
      rw [if_neg h3] at hpack
      by_cases h4 : n < 0x100000000
      · rw [if_pos h4] at hpack; cases hpack; simp [beBytes_length]
      rw [if_neg h4] at hpack
      by_cases h5 : n < 0x10000000000000000
      · rw [if_pos h5] at hpack; cases hpack; simp [beBytes_length]
      rw [if_neg h5] at hpack
      exact Option.noConfusion hpack
    | raw bs =>
      rw [packValue] at hpack
      rw [valueDepth]
      by_cases h1 : bs.length < 0x20
      · rw [if_pos h1] at hpack; cases hpack; simp
      rw [if_neg h1] at hpack
      by_cases h2 : bs.length < 0x10000
      · rw [if_pos h2] at hpack; cases hpack; simp
      rw [if_neg h2] at hpack
      by_cases h3 : bs.length < 0x100000000
      · rw [if_pos h3] at hpack; cases hpack; simp
      rw [if_neg h3] at hpack
      exact Option.noConfusion hpack
    | arr l =>
      rw [packValue] at hpack
      cases hbody : packList l with
      | none => rw [hbody] at hpack; exact Option.noConfusion hpack
      | some body =>
        rw [hbody] at hpack
        simp only [] at hpack
        have hmem : ∀ v ∈ l, ∀ out, packValue v = some out →
            valueDepth v ≤ out.length := by
          intro v hv out hout
          have hs1 : sizeOf v < sizeOf (Value.arr l) := by
            have := List.sizeOf_lt_of_mem hv
            simp only [Value.arr.sizeOf_spec]
            omega
          exact IH (sizeOf (Value.arr l)) (by omega) v hs1 out hout
        have hld := listDepth_le_packList l hmem body hbody
        rw [valueDepth]
        by_cases h1 : l.length < 0x10
        · rw [if_pos h1] at hpack; cases hpack; simp; omega
        rw [if_neg h1] at hpack
        by_cases h2 : l.length < 0x10000
        · rw [if_pos h2] at hpack; cases hpack
          simp [beBytes_length]; omega
        rw [if_neg h2] at hpack
        by_cases h3 : l.length < 0x100000000
        · rw [if_pos h3] at hpack; cases hpack
          simp [beBytes_length]; omega
        rw [if_neg h3] at hpack
        exact Option.noConfusion hpack
    | map l =>
      rw [packValue] at hpack
      cases hbody : packEntries l with
      | none => rw [hbody] at hpack; exact Option.noConfusion hpack
      | some body =>
        rw [hbody] at hpack
        simp only [] at hpack
        have hmem : ∀ kv ∈ l, ∀ out1 out2, packValue kv.1 = some out1 →
            packValue kv.2 = some out2 →
            valueDepth kv.1 ≤ out1.length ∧ valueDepth kv.2 ≤ out2.length := by
          intro kv hkv out1 out2 hout1 hout2
          have hs0 : sizeOf kv < sizeOf l := List.sizeOf_lt_of_mem hkv
          obtain ⟨a, b⟩ := kv
          have hsp : sizeOf ((a, b) : Value × Value) = 1 + sizeOf a + sizeOf b :=
            Prod.mk.sizeOf_spec a b
          have hsa : sizeOf a < sizeOf (Value.map l) := by
            simp only [Value.map.sizeOf_spec]
            omega
          have hsb : sizeOf b < sizeOf (Value.map l) := by
            simp only [Value.map.sizeOf_spec]
            omega
          exact ⟨IH (sizeOf (Value.map l)) (by omega) a hsa out1 hout1,
            IH (sizeOf (Value.map l)) (by omega) b hsb out2 hout2⟩
        have hld := entriesDepth_le_packEntries l hmem body hbody
        rw [valueDepth]
        by_cases h1 : l.length < 0x10
        · rw [if_pos h1] at hpack; cases hpack; simp; omega
        rw [if_neg h1] at hpack
        by_cases h2 : l.length < 0x10000
        · rw [if_pos h2] at hpack; cases hpack
          simp [beBytes_length]; omega
        rw [if_neg h2] at hpack
        by_cases h3 : l.length < 0x100000000
        · rw [if_pos h3] at hpack; cases hpack
          simp [beBytes_length]; omega
        rw [if_neg h3] at hpack
        exact Option.noConfusion hpack

/-- `msgpack.unpack` on a whole stream: decode one value and require the
stream to be exhausted. -/
def unpack (bs : List ℕ) : Option Value :=
  match unpackValue (bs.length + 1) bs with
  | some (v, []) => some v
  | _ => none

/-- msgpack round-trip: unpacking a packed value gives the value back. -/
theorem unpack_packValue (v : Value) (out : List ℕ)
    (hpack : packValue v = some out) : unpack out = some v := by
  have hd := valueDepth_le_packValue (sizeOf v + 1) v (Nat.lt_succ_self _) out hpack
  have hrt := unpackValue_packValue (out.length + 1) v out (by omega) hpack []
  rw [List.append_nil] at hrt
  unfold unpack
  rw [hrt]

/-! ## The safe data model (`safe.py`) -/

/-- ASCII bytes of a Python string literal (the field names of the data map). -/
def strBytes (s : String) : List ℕ := s.toList.map Char.toNat

def kType : List ℕ := strBytes "type"
def kNBlocks : List ℕ := strBytes "n-blocks"
def kBlockIndexSize : List ℕ := strBytes "block-index-size"
def kGroupParams : List ℕ := strBytes "group-params"
def kKeyStretching : List ℕ := strBytes "key-stretching"
def kHash : List ℕ := strBytes "hash"
def kBlocks : List ℕ := strBytes "blocks"

/-- Is this value the raw string `k`?  (Python dict keys are strings.) -/
def isRawKey (k : List ℕ) : Value → Bool
  | .raw bs => decide (bs = k)
  | _ => false

/-- Python dict lookup `data[k]` / membership `k in data` on the unpacked
top-level map, with string key `k`. -/
def lookup (d : List (Value × Value)) (k : List ℕ) : Option Value :=
  match d.find? (fun kv => isRawKey k kv.1) with
  | some kv => some kv.2
  | none => none

/-- Is this value a raw string?  (`isinstance(x, basestring)`) -/
def isRawString : Value → Bool
  | .raw _ => true
  | _ => false

/-- `isinstance(x, list)` on an optional field, extracting the list. -/
def asArr : Option Value → Option (List Value)
  | some (.arr l) => some l
  | _ => none

/-- `isinstance(x, int)` on an optional field, extracting the integer. -/
def asInt : Option Value → Option ℕ
  | some (.int n) => some n
  | _ => none

/-- The `struct.Struct` index encodings: `>B`, `>H`, `>I`. -/
inductive IdxStruct : Type where
  | u8 : IdxStruct
  | u16 : IdxStruct
  | u32 : IdxStruct
deriving DecidableEq

/-- Number of bytes `struct.pack` emits for each index encoding. -/
def IdxStruct.packSize : IdxStruct → ℕ
  | .u8 => 1
  | .u16 => 2
  | .u32 => 4

/-- The `block-index-size` dispatch of `ElGamalSafe.__init__`
(safe.py lines 100–105), verbatim — including the duplicated `4` test
(`'>H'` on the first `4` branch, unreachable `'>I'` on the second) and the
absence of a branch for `2`. -/
def selectIndexStruct (v : ℕ) : Option IdxStruct :=
  if v = 1 then some .u8
  else if v = 4 then some .u16
  else if v = 4 then some .u32
  else none

/-- `SafeFormatError(msg)`. -/
inductive SafeError : Type where
  | safeFormat (msg : String) : SafeError

/-- The runtime class of a safe object: `Safe` (the base class) or
`ElGamalSafe`. -/
inductive SafeClass : Type where
  | base : SafeClass
  | elgamal : SafeClass
deriving DecidableEq

/-- A constructed safe object: its class, its `data` map, and the
`_block_index_struct` attribute (absent on the base class and on
fall-through of the `block-index-size` dispatch). -/
structure SafeObj : Type where
  cls : SafeClass
  data : List (Value × Value)
  blockIndexStruct : Option IdxStruct

/-- `Safe.__init__` (safe.py lines 42–49): requires the `key-stretching` and
`hash` attributes, then runs `pol.ks.KeyStretching.setup` /
`pol.hash.Hash.setup`.  Those two modules are not among the sources;
modelled from the spec: setup is deterministic given the stored parameter
map and performs no further format checking of its own. -/
def safeInit (d : List (Value × Value)) : Except SafeError SafeObj :=
  if (lookup d kKeyStretching).isNone then
    .error (.safeFormat "Missing key-stretching attribute")
  else if (lookup d kHash).isNone then
    .error (.safeFormat "Missing hash attribute")
  else .ok ⟨.base, d, none⟩

/-- `ElGamalSafe.__init__` (safe.py lines 80–105): the base checks via
`super()`, presence of the four ElGamal attributes, their type checks, the
block-count equality, the `group-params` shape checks, and the
`block-index-size` dispatch. -/
def elGamalSafeInit (d : List (Value × Value)) : Except SafeError SafeObj :=
  match safeInit d with
  | .error e => .error e
  | .ok _ =>
    if (lookup d kGroupParams).isNone then
      .error (.safeFormat "Missing attr group-params")
    else if (lookup d kNBlocks).isNone then
      .error (.safeFormat "Missing attr n-blocks")
    else if (lookup d kBlocks).isNone then
      .error (.safeFormat "Missing attr blocks")
    else if (lookup d kBlockIndexSize).isNone then
      .error (.safeFormat "Missing attr block-index-size")
    else
      match asArr (lookup d kBlocks), asArr (lookup d kGroupParams),
          asInt (lookup d kBlockIndexSize), asInt (lookup d kNBlocks) with
      | some blocks, some gp, some bis, some nblocks =>
        if blocks.length ≠ nblocks then
          .error (.safeFormat "Amount of blocks isnt n-blocks")
        else if gp.length ≠ 2 then
          .error (.safeFormat "group-params should contain 2 elements")
        else if ¬ (gp.all isRawString) then
          .error (.safeFormat "group-params should contain strings")
        else .ok ⟨.elgamal, d, selectIndexStruct bis⟩
      | _, _, _, _ => .error (.safeFormat "attribute has wrong type")

/-- `TYPE_MAP = {'elgamal': ElGamalSafe}` membership test. -/
def inTypeMap (t : List ℕ) : Bool := decide (t = strBytes "elgamal")

/-- `Safe.load` after unpacking (safe.py lines 66–69): the `type` checks and
the dispatch through `TYPE_MAP` to the constructor. -/
def loadData (d : List (Value × Value)) : Except SafeError SafeObj :=
  match lookup d kType with
  | some (.raw t) =>
      if inTypeMap t then elGamalSafeInit d
      else .error (.safeFormat "Invalid type attribute")
  | some _ => .error (.safeFormat "Invalid type attribute")
  | none => .error (.safeFormat "Invalid type attribute")

/-- `Safe.store` (safe.py lines 51–55): `msgpack.pack(self.data, stream)`. -/
def Safe.store (s : SafeObj) : Option (List ℕ) := packValue (.map s.data)

/-- `Safe.load` (safe.py lines 60–69): unpack the stream, then check `type`
and dispatch.  Returns `none` when unpacking fails or the top level is not
a map (those failures raise non-`SafeFormatError` exceptions). -/
def Safe.load (bs : List ℕ) : Option (Except SafeError SafeObj) :=
  match unpack bs with
  | some (.map d) => some (loadData d)
  | _ => none

/-! ## `ElGamalSafe.generate` (safe.py lines 106–134) -/

/-- ElGamal group parameters `(g, p)`. -/
structure GroupParams : Type where
  g : ℕ
  p : ℕ

/-- Modelled from the spec: `pol.ks.KeyStretching.setup()` with no argument
selects the default key-stretching function; its parameter map `ks.params`
(algorithm id, cost factors, salt) is what `generate` stores.  The module
`pol.ks` is not among the sources; the concrete map is irrelevant here, so
we fix a representative value. -/
def ksDefaultParams : Value := .map [(.raw (strBytes "type"), .raw (strBytes "scrypt"))]

/-- Modelled from the spec: `pol.hash.Hash.setup()` with no argument selects
the default purpose-hash function and `generate` stores its parameter map.
The module `pol.hash` is not among the sources; the concrete map is
irrelevant here, so we fix a representative value. -/
def hashDefaultParams : Value := .map [(.raw (strBytes "type"), .raw (strBytes "sha"))]

/-- `ElGamalSafe.generate` (safe.py lines 106–134).

The group-parameter generation lives in `pol.elgamal`, which is not among
the sources; modelled from the spec: `generate_group_params(bits, ...)` and
`precomputed_group_params(bits)` return a pair `(g, p)` for the requested
bit size.  They are randomized/external, so they enter as the oracles
`gpGen` and `gpPre`, applied to the requested bit size.  `rng i` is the
`i`-th draw consumed by `Crypto.Random.random.randint`; block `i` consumes
draws `3*i`, `3*i+1`, `3*i+2`.

Python default arguments are mirrored as Lean default arguments:
`n_blocks=1024, block_index_size=2, gp_bits=1024, precomputed_gp=False`.
Note the final `Safe({...})`: the returned object is built by the *base*
constructor. -/
def ElGamalSafe.generate (gpGen gpPre : ℕ → GroupParams) (rng : ℕ → ℕ)
    (n_blocks : ℕ := 1024) (block_index_size : ℕ := 2)
    (ks : Option Value := none) (hash : Option Value := none)
    (gp_bits : ℕ := 1024) (precomputed_gp : Bool := false) :
    Except SafeError SafeObj :=
  let gp := if precomputed_gp then gpPre gp_bits else gpGen gp_bits
  let ksParams := ks.getD ksDefaultParams
  let hashParams := hash.getD hashDefaultParams
  safeInit
    [(.raw kType, .raw (strBytes "elgamal")),
     (.raw kNBlocks, .int n_blocks),
     (.raw kBlockIndexSize, .int block_index_size),
     (.raw kGroupParams, .arr [.raw (natBinary gp.g), .raw (natBinary gp.p)]),
     (.raw kKeyStretching, ksParams),
     (.raw kHash, hashParams),
     (.raw kBlocks, .arr ((List.range n_blocks).map (fun i =>
        .arr [.raw (natBinary (randint 2 gp.p (rng (3 * i)))),
              .raw (natBinary (randint 2 gp.p (rng (3 * i + 1)))),
              .raw (natBinary (randint 2 gp.p (rng (3 * i + 2))))])))]

/-- Python attribute resolution for `ElGamalSafe.nblocks` on a safe object:
the property exists only on the `ElGamalSafe` class, so looking it up on a
base-class instance fails (`AttributeError`, modelled as `none`). -/
def SafeObj.nblocksAttr (s : SafeObj) : Option Value :=
  match s.cls with
  | .elgamal => lookup s.data kNBlocks
  | .base => none

/-! ## Rerandomization (`safe.py` lines 152–185) -/

/-- A stored block: three base-256 byte strings `[c1, c2, h]`. -/
def RawBlock : Type := List ℕ × List ℕ × List ℕ

/-- `_eg_rerandomize_block` (safe.py lines 173–185): draw
`s = randint(2, int(p))` (draw `r` externalized), convert the three byte
strings with `mpz(_, 256)`, set `b[0] = b[0]*pow(g, s, p) % p` and
`b[1] = b[1]*pow(b[2], s, p) % p`, and write the first two back with
`.binary()`; the third byte string is returned untouched. -/
def eg_rerandomize_block (g p : ℕ) (raw_b : RawBlock) (r : ℕ) : RawBlock :=
  let s := randint 2 p r
  let b0 := mpzOfBinary raw_b.1
  let b1 := mpzOfBinary raw_b.2.1
  let b2 := mpzOfBinary raw_b.2.2
  (natBinary (b0 * (g ^ s % p) % p), natBinary (b1 * (b2 ^ s % p) % p), raw_b.2.2)

/-- `ElGamalSafe.rerandomize` (safe.py lines 152–166) on the block array:
`pool.map(_eg_rerandomize_block, [(gp.g, gp.p, b) for b in self.data['blocks']])`.
`pool.map` preserves input order; each call consumes its own fresh draw,
externalized as `rng i` for position `i`. -/
def rerandomizeBlocks (g p : ℕ) (rng : ℕ → ℕ) (blocks : List RawBlock) :
    List RawBlock :=
  blocks.mapIdx (fun i b => eg_rerandomize_block g p b (rng i))

/-! ## `Program.cmd_get` (main.py lines 418–448) -/

/-- An entry yielded by `Container.get(key)`.  Modelled from the spec:
`get` yields the `(key, note, secret)` triples matching the key (so every
yielded entry passes the `len(entry) == 3` filter of `cmd_get`). -/
def Entry : Type := String × String × String

/-- Why scanning one opened container contributed no entries:
`pol.safe.MissingKey` or `KeyError`, both swallowed by `cmd_get`. -/
inductive GetErr : Type where
  | missingKey : GetErr
  | keyError : GetErr

/-- The outcome of `container.get(self.args.key)` for one opened container.
Modelled from the spec: the call either raises (`MissingKey` when the
capability is not `Full`) or yields the list of matching triples. -/
def GetOutcome : Type := Except GetErr (List Entry)

/-- What `cmd_get` does after the scan: return an error code, or print the
unique entry's secret on stdout (and return `None`, exit code 0). -/
inductive CmdGetResult : Type where
  | code (n : ℤ) : CmdGetResult
  | printed (secret : String) : CmdGetResult
deriving DecidableEq

/-- The entries `cmd_get` accumulates across the opened containers. -/
def collectEntries (containers : List GetOutcome) : List Entry :=
  containers.flatMap (fun c =>
    match c with
    | .ok es => es
    | .error _ => [])

/-- `Program.cmd_get` (main.py lines 418–448) given the outcomes for the
containers the password opened, in discovery order: `found_one` is set iff
the iterator yielded at least one container; raising containers are
skipped; then the `-1` / `-4` / `-8` / print cascade. -/
def cmdGet (containers : List GetOutcome) : CmdGetResult :=
  let entries := collectEntries containers
  if containers.isEmpty then .code (-1)
  else if entries.isEmpty then .code (-4)
  else if 1 < entries.length then .code (-8)
  else .printed (entries.headD ("", "", "")).2.2

/-! ## Claim theorems -/

/-- The algebraic core of rerandomization over `ZMod p`: multiplying `c1` by
`g^s` and `c2` by `(g^x)^s` leaves `c2 * (c1^x)⁻¹` unchanged. -/
theorem elgamal_rerand_core {p : ℕ} [Fact p.Prime] (a b g : ZMod p) (x s : ℕ)
    (hg : g ≠ 0) :
    b * (g ^ x) ^ s * ((a * g ^ s) ^ x)⁻¹ = b * (a ^ x)⁻¹ := by
  have hne : g ^ (s * x) ≠ 0 := pow_ne_zero _ hg
  rw [mul_pow, mul_inv, ← pow_mul, ← pow_mul]
  calc b * g ^ (x * s) * ((a ^ x)⁻¹ * (g ^ (s * x))⁻¹)
      = b * (a ^ x)⁻¹ * (g ^ (s * x) * (g ^ (s * x))⁻¹) := by ring
    _ = b * (a ^ x)⁻¹ := by rw [mul_inv_cancel₀ hne, mul_one]

/-- C1: rerandomization preserves decryption.  For prime `p`, a block
`(c1, c2, h)` with `h ≡ g^x (mod p)` and `g ≢ 0 (mod p)`, and any draw `r`
(hence any exponent `s = randint 2 p r` the rerandomizer can choose), the
rerandomized block `(c1·g^s mod p, c2·h^s mod p, h)` has the same plaintext
`c2·(c1^x)⁻¹ mod p` under the private key `x`. -/
theorem rerandomize_preserves_decryption (g p x r : ℕ) (c1 c2 h : List ℕ)
    (hp : p.Prime) (hg : (g : ZMod p) ≠ 0)
    (hh : mpzOfBinary h % p = g ^ x % p) :
    (mpzOfBinary (eg_rerandomize_block g p (c1, c2, h) r).2.1 : ZMod p) *
      ((mpzOfBinary (eg_rerandomize_block g p (c1, c2, h) r).1 : ZMod p) ^ x)⁻¹ =
    (mpzOfBinary c2 : ZMod p) * ((mpzOfBinary c1 : ZMod p) ^ x)⁻¹ := by
  haveI : Fact p.Prime := ⟨hp⟩
  have hhz : (mpzOfBinary h : ZMod p) = (g : ZMod p) ^ x := by
    have hcast := congrArg (fun n : ℕ => (n : ZMod p)) hh
    push_cast [ZMod.natCast_mod] at hcast
    exact hcast
  simp only [eg_rerandomize_block, mpzOfBinary_natBinary]
  push_cast [ZMod.natCast_mod]
  rw [hhz]
  exact elgamal_rerand_core _ _ _ x (randint 2 p r) hg

/-- Witness for C1 at `p = 5`, `g = 2`, `x = 3`, `h = g^x mod p = 3`,
`c1 = 2`, `c2 = 4`, draw `r = 0`. -/
theorem rerandomize_preserves_decryption_witness :
    Nat.Prime 5 ∧ ((2 : ZMod 5) ≠ 0) ∧
      (mpzOfBinary (natBinary 3) % 5 = 2 ^ 3 % 5) ∧
      ((mpzOfBinary (eg_rerandomize_block 2 5 (natBinary 2, natBinary 4, natBinary 3) 0).2.1 : ZMod 5) *
        ((mpzOfBinary (eg_rerandomize_block 2 5 (natBinary 2, natBinary 4, natBinary 3) 0).1 : ZMod 5) ^ 3)⁻¹ =
      (mpzOfBinary (natBinary 4) : ZMod 5) * ((mpzOfBinary (natBinary 2) : ZMod 5) ^ 3)⁻¹) :=
  ⟨by norm_num, by decide, by decide,
    rerandomize_preserves_decryption 2 5 3 0 (natBinary 2) (natBinary 4)
      (natBinary 3) (by norm_num) (by decide) (by decide)⟩

/-- C2 (refuted): the key-derivation tags are *not* pairwise distinct —
`KC_ELGAMAL` and `KC_LIST` are the same 16 bytes; only `KC_APPEND`
differs. -/
theorem kc_tags_not_pairwise_distinct :
    KC_ELGAMAL = KC_LIST ∧ KC_ELGAMAL ≠ KC_APPEND ∧ KC_LIST ≠ KC_APPEND := by
  refine ⟨rfl, by decide, by decide⟩

/-- C3 (refuted at the boundary): `randint` is inclusive at both endpoints,
so a block value produced by `generate` can equal `p` itself, violating
`v < p`.  With `p = 5` and every draw `r = 3`, `randint 2 5 3 = 5` and the
single generated block is `[5, 5, 5]` in base-256 — and the rerandomization
exponent drawn by `_eg_rerandomize_block` from the same draw is `5 = p` as
well. -/
theorem generate_block_value_reaches_p :
    randint 2 5 3 = 5 ∧ ¬ (randint 2 5 3 < 5) ∧
    (match ElGamalSafe.generate (fun _ => ⟨2, 5⟩) (fun _ => ⟨2, 5⟩)
        (fun _ => 3) 1 with
     | .ok s => lookup s.data kBlocks
     | .error _ => none) =
      some (.arr [.arr [.raw (natBinary 5), .raw (natBinary 5),
        .raw (natBinary 5)]]) ∧
    mpzOfBinary (natBinary 5) = 5 := by
  refine ⟨rfl, by decide, rfl, rfl⟩

/-- C4 (refuted): the `block-index-size` dispatch selects no struct at all
for the accepted value `2`, and selects the **2-byte** encoding `>H` for the
value `4`; the `>I` branch is unreachable. -/
theorem block_index_size_dispatch_broken :
    selectIndexStruct 1 = some IdxStruct.u8 ∧
    selectIndexStruct 2 = none ∧
    selectIndexStruct 4 = some IdxStruct.u16 ∧
    IdxStruct.packSize IdxStruct.u16 = 2 ∧ ¬ (IdxStruct.packSize IdxStruct.u16 = 4) := by
  refine ⟨rfl, rfl, rfl, rfl, by decide⟩

/-- C5: for every argument combination, `ElGamalSafe.generate` returns an
object built by the *base* `Safe` constructor: its class is `Safe` (not
`ElGamalSafe`), no `_block_index_struct` is ever selected (for any
`block_index_size`, valid or not), and the ElGamal-only attributes such as
`nblocks` do not resolve on it. -/
theorem generate_returns_base_safe (gpGen gpPre : ℕ → GroupParams)
    (rng : ℕ → ℕ) (n_blocks block_index_size : ℕ) (ks hash : Option Value)
    (gp_bits : ℕ) (precomputed_gp : Bool) :
    ∃ s : SafeObj,
      ElGamalSafe.generate gpGen gpPre rng n_blocks block_index_size ks hash
        gp_bits precomputed_gp = Except.ok s ∧
      s.cls = SafeClass.base ∧ SafeClass.base ≠ SafeClass.elgamal ∧
      s.blockIndexStruct = none ∧ s.nblocksAttr = none :=
  ⟨_, rfl, rfl, by decide, rfl, rfl⟩

/-- C6: rerandomizing the block array keeps its length, maps position `i`
to the rerandomization of the input block at position `i` (no reordering),
and leaves the third component `h` of every block byte-for-byte
unchanged. -/
theorem rerandomize_frame (g p : ℕ) (rng : ℕ → ℕ) (blocks : List RawBlock)
    (i : ℕ) :
    (rerandomizeBlocks g p rng blocks).length = blocks.length ∧
    (rerandomizeBlocks g p rng blocks)[i]? =
      (blocks[i]?).map (fun b => eg_rerandomize_block g p b (rng i)) ∧
    ((rerandomizeBlocks g p rng blocks)[i]?).map (fun b => b.2.2) =
      (blocks[i]?).map (fun b => b.2.2) := by
  have hlen : (rerandomizeBlocks g p rng blocks).length = blocks.length := by
    simp [rerandomizeBlocks]
  have hget : (rerandomizeBlocks g p rng blocks)[i]? =
      (blocks[i]?).map (fun b => eg_rerandomize_block g p b (rng i)) := by
    simp [rerandomizeBlocks, List.getElem?_mapIdx]
  refine ⟨hlen, hget, ?_⟩
  rw [hget]
  cases blocks[i]? with
  | none => rfl
  | some b => simp [eg_rerandomize_block]

/-- A concrete well-formed `elgamal` data map, with an additional unknown
top-level field (`future-field`) that the format must preserve. -/
def exSafeData : List (Value × Value) :=
  [(.raw kType, .raw (strBytes "elgamal")),
   (.raw kNBlocks, .int 2),
   (.raw kBlockIndexSize, .int 1),
   (.raw kGroupParams, .arr [.raw (natBinary 2), .raw (natBinary 5)]),
   (.raw kKeyStretching, ksDefaultParams),
   (.raw kHash, hashDefaultParams),
   (.raw kBlocks, .arr [.arr [.raw [2], .raw [3], .raw [4]],
                        .arr [.raw [2], .raw [2], .raw [2]]]),
   (.raw (strBytes "future-field"), .int 42)]

/-- The bytes `Safe.store` writes for `exSafeData`. -/
def exSafeBytes : List ℕ := (packValue (.map exSafeData)).getD []

theorem loadData_ok_data (d : List (Value × Value)) (s : SafeObj)
    (h : loadData d = Except.ok s) : s.data = d := by
  unfold loadData elGamalSafeInit safeInit at h
  repeat' split at h
  all_goals first
    | (cases h; rfl)
    | exact Except.noConfusion h

/-- C7: store/load round-trip.  For every safe object whose data map the
loader accepts (type `elgamal`, all required fields well-shaped — unknown
extra fields allowed), loading the bytes written by `Safe.store` succeeds
and returns a safe whose `data` equals the original map, unknown fields
included. -/
theorem store_load_roundtrip (s : SafeObj) (bs : List ℕ)
    (hvalid : ∃ s0, loadData s.data = Except.ok s0)
    (hstore : Safe.store s = some bs) :
    ∃ s2, Safe.load bs = some (Except.ok s2) ∧ s2.data = s.data := by
  obtain ⟨s0, h0⟩ := hvalid
  unfold Safe.store at hstore
  have hload : Safe.load bs = some (loadData s.data) := by
    unfold Safe.load
    rw [unpack_packValue _ _ hstore]
  exact ⟨s0, by rw [hload, h0], loadData_ok_data _ _ h0⟩

/-- Witness for C7 on `exSafeData` (which carries the unknown field
`future-field`). -/
theorem store_load_roundtrip_witness :
    ∃ s2, Safe.load exSafeBytes = some (Except.ok s2) ∧
      s2.data = exSafeData :=
  store_load_roundtrip ⟨SafeClass.elgamal, exSafeData, some IdxStruct.u8⟩
    exSafeBytes ⟨⟨SafeClass.elgamal, exSafeData, selectIndexStruct 1⟩, rfl⟩ rfl

/-- C8: the error surface of `cmd_get`.  Over the outcomes of the containers
the password opened: no container → `-1`; containers but no matching entry
→ `-4`; more than one matching entry across the opened containers → `-8`;
exactly one match → its secret is printed. -/
theorem cmdGet_error_surface (containers : List GetOutcome) :
    (containers = [] → cmdGet containers = .code (-1)) ∧
    (containers ≠ [] → collectEntries containers = [] →
      cmdGet containers = .code (-4)) ∧
    (1 < (collectEntries containers).length →
      cmdGet containers = .code (-8)) ∧
    (∀ e : Entry, containers ≠ [] → collectEntries containers = [e] →
      cmdGet containers = .printed e.2.2) := by
  refine ⟨?_, ?_, ?_, ?_⟩
  · intro h
    subst h
    rfl
  · intro hne hent
    unfold cmdGet
    rw [hent]
    simp [List.isEmpty_iff, hne]
  · intro hlen
    have hne : containers ≠ [] := by
      intro h
      subst h
      simp [collectEntries] at hlen
    unfold cmdGet
    have hent : ¬ (collectEntries containers).isEmpty = true := by
      intro h
      rw [List.isEmpty_iff] at h
      rw [h] at hlen
      simp at hlen
    simp [List.isEmpty_iff, hne, hent, hlen]
  · intro e hne hent
    unfold cmdGet
    rw [hent]
    simp [List.isEmpty_iff, hne]

/-- Witness for C8, exercising all four outcomes on concrete container
lists. -/
theorem cmdGet_error_surface_witness :
    cmdGet [] = .code (-1) ∧
    cmdGet [Except.error GetErr.missingKey] = .code (-4) ∧
    cmdGet [Except.ok [("k", "n1", "s1"), ("k", "n2", "s2")]] = .code (-8) ∧
    cmdGet [Except.error GetErr.keyError, Except.ok [("k", "n", "s")]] =
      .printed "s" :=
  ⟨(cmdGet_error_surface []).1 rfl,
   (cmdGet_error_surface [Except.error GetErr.missingKey]).2.1
     (by simp) rfl,
   (cmdGet_error_surface [Except.ok [("k", "n1", "s1"), ("k", "n2", "s2")]]).2.2.1
     (by norm_num [collectEntries]),
   (cmdGet_error_surface [Except.error GetErr.keyError,
       Except.ok [("k", "n", "s")]]).2.2.2
     ("k", "n", "s") (by simp) rfl⟩

/-- The claim's type-level failure condition on the unpacked map, in its own
words: the map lacks a `type` field, its `type` is not a string, or its
`type` is not a registered safe type. -/
def typeCheckFails (d : List (Value × Value)) : Bool :=
  match lookup d kType with
  | some (.raw t) => ! inTypeMap t
  | some _ => true
  | none => true

/-- The claim's `elgamal`-construction failure condition, in its own words:
one of `key-stretching`, `hash`, `group-params`, `n-blocks`, `blocks`,
`block-index-size` is missing or has the wrong shape, or `len(blocks)`
differs from `n-blocks`. -/
def elgamalCheckFails (d : List (Value × Value)) : Bool :=
  (lookup d kKeyStretching).isNone ||
  (lookup d kHash).isNone ||
  (match asArr (lookup d kGroupParams) with
   | some gp => ! (decide (gp.length = 2) && gp.all isRawString)
   | none => true) ||
  (asInt (lookup d kNBlocks)).isNone ||
  (asArr (lookup d kBlocks)).isNone ||
  (asInt (lookup d kBlockIndexSize)).isNone ||
  (match asArr (lookup d kBlocks), asInt (lookup d kNBlocks) with
   | some bl, some n => decide (bl.length ≠ n)
   | _, _ => false)

/-- `loadData` succeeds exactly when neither the type check nor the
`elgamal` construction checks fail. -/
theorem loadData_isOk_eq (d : List (Value × Value)) :
    (loadData d).isOk = (! typeCheckFails d && ! elgamalCheckFails d) := by
  unfold loadData typeCheckFails elgamalCheckFails elGamalSafeInit safeInit
  cases hT : lookup d kType with
  | none => rfl
  | some vT =>
    cases vT with
    | nil => rfl
    | bool b => rfl
    | int n => rfl
    | arr l => rfl
    | map l => rfl
    | raw t =>
      by_cases hreg : inTypeMap t = true
      · simp only [hreg, Bool.not_true, Bool.false_and, if_true]
        cases hKS : lookup d kKeyStretching with
        | none => simp [Except.isOk, Except.toBool, asArr, asInt]
        | some vKS =>
          cases hH : lookup d kHash with
          | none => simp [Except.isOk, Except.toBool, asArr, asInt]
          | some vH =>
            cases hGP : lookup d kGroupParams with
            | none => simp [Except.isOk, Except.toBool, asArr, asInt]
            | some vGP =>
              cases hNB : lookup d kNBlocks with
              | none => simp [Except.isOk, Except.toBool, asArr, asInt]
              | some vNB =>
                cases hBL : lookup d kBlocks with
                | none => simp [Except.isOk, Except.toBool, asArr, asInt]
                | some vBL =>
                  cases hBIS : lookup d kBlockIndexSize with
                  | none => simp [Except.isOk, Except.toBool, asArr, asInt]
                  | some vBIS =>
                    cases hBLa : asArr (some vBL) with
                    | none => simp [Except.isOk, Except.toBool, asArr, asInt]
                    | some blocks =>
                      cases hGPa : asArr (some vGP) with
                      | none => simp [Except.isOk, Except.toBool, asArr, asInt]
                      | some gp =>
                        cases hBISa : asInt (some vBIS) with
                        | none => simp [Except.isOk, Except.toBool, asArr, asInt]
                        | some bis =>
                          cases hNBa : asInt (some vNB) with
                          | none => simp [Except.isOk, Except.toBool, asArr, asInt]
                          | some n =>
                            by_cases h1 : blocks.length ≠ n
                            · simp [Except.isOk, Except.toBool, asArr, asInt, h1]
                            · by_cases h2 : gp.length ≠ 2
                              · simp [Except.isOk, Except.toBool, asArr, asInt, h1, h2]
                              · by_cases h3 : gp.all isRawString
                                · simp [Except.isOk, Except.toBool, asArr, asInt, h1, h2, h3]
                                  omega
                                · simp [Except.isOk, Except.toBool, asArr, asInt, h1, h2, h3]
      · have hreg2 : inTypeMap t = false := by
          cases hb : inTypeMap t
          · rfl
          · exact absurd hb hreg
        simp [Except.isOk, Except.toBool, asArr, asInt, hreg2]

/-- C9: `Safe.load` raises `SafeFormatError` on an unpacked top-level map
exactly when the `type` field is missing / not a string / not a registered
safe type, or — the type dispatching to `elgamal` — when one of
`key-stretching`, `hash`, `group-params`, `n-blocks`, `blocks`,
`block-index-size` is missing or has the wrong shape, or `len(blocks)`
differs from `n-blocks`. -/
theorem loadData_error_iff (d : List (Value × Value)) :
    (∃ e, loadData d = Except.error e) ↔
      (typeCheckFails d = true ∨ elgamalCheckFails d = true) := by
  have h := loadData_isOk_eq d
  cases hld : loadData d with
  | ok s =>
    rw [hld] at h
    simp only [Except.isOk] at h
    constructor
    · intro ⟨e, he⟩
      exact Except.noConfusion he
    · intro hcon
      rcases hcon with hc | hc <;>
        (rw [hc] at h; simp [Except.toBool] at h)
  | error e =>
    rw [hld] at h
    simp only [Except.isOk] at h
    constructor
    · intro _
      cases ht : typeCheckFails d with
      | true => exact Or.inl rfl
      | false =>
        cases he2 : elgamalCheckFails d with
        | true => exact Or.inr rfl
        | false => rw [ht, he2] at h; simp [Except.toBool] at h
    · intro _
      exact ⟨e, rfl⟩

/-- A probe oracle for group-parameter generation: it records the requested
bit size inside the returned prime slot, so the stored `group-params` field
reveals which bit size `generate` asked for. -/
def gpBitsProbe : ℕ → GroupParams := fun bits => ⟨2, bits⟩

/-- C10 (refuted): when `ElGamalSafe.generate` is called without an explicit
`gp_bits`, it requests **1024**-bit group parameters, not 1025: for every
oracle, the stored `group-params` are the oracle's answer at 1024, and with
the probe oracle the stored `p` slot reads 1024 — distinguishable from the
1025 the claim predicts. -/
theorem generate_default_gp_bits_is_1024 :
    (∀ gpGen gpPre : ℕ → GroupParams, ∀ rng : ℕ → ℕ,
      (match ElGamalSafe.generate gpGen gpPre rng with
       | .ok s => lookup s.data kGroupParams
       | .error _ => none) =
        some (.arr [.raw (natBinary (gpGen 1024).g),
          .raw (natBinary (gpGen 1024).p)])) ∧
    (match ElGamalSafe.generate gpBitsProbe gpBitsProbe (fun _ => 0) with
     | .ok s => lookup s.data kGroupParams
     | .error _ => none) =
      some (.arr [.raw (natBinary 2), .raw (natBinary 1024)]) ∧
    natBinary 1024 ≠ natBinary 1025 :=
  ⟨fun _ _ _ => rfl, rfl, by decide⟩

end Pol
